import Mathlib

/-!
Verification of the pseudo-business repository against its specification.

Part 1 embeds the API-gateway JavaScript code (`LoadBalancer`, the
`authenticateToken` middleware, the `POST /register` handler) as Lean
functions.  Part 2 models the evolutionary code-optimization engine: its
implementation is described by the spec and the architecture documents but
is not present in the source tree, so the definitions there are modelled
from the spec and marked as such.
-/

/-! ## LoadBalancer (src/unnamed/part_006) -/

/-- The round-robin load balancer state: a list of server URLs and the
index of the next server to hand out. -/
structure LoadBalancer where
  servers : List String
  currentIndex : Nat
deriving Repr, DecidableEq

/-- `addServer` pushes a URL onto the end of the server pool. -/
def addServer (lb : LoadBalancer) (url : String) : LoadBalancer :=
  { lb with servers := lb.servers ++ [url] }

/-- `getNextServer` from the JS source: throws `No servers available` when
the pool is empty, otherwise returns `servers[currentIndex]` (an
out-of-bounds JS index reads `undefined`, modelled by `Option`) and
advances `currentIndex` modulo the pool size. -/
def getNextServer (lb : LoadBalancer) : Except String (Option String × LoadBalancer) :=
  if lb.servers.length = 0 then
    Except.error "No servers available"
  else
    Except.ok (lb.servers.get? lb.currentIndex,
      { lb with currentIndex := (lb.currentIndex + 1) % lb.servers.length })

/-- The servers handed out by `k` consecutive `getNextServer` calls
(cut short if the pool is empty and the call throws). -/
def collectServers : Nat → LoadBalancer → List (Option String)
  | 0, _ => []
  | k + 1, lb =>
    match getNextServer lb with
    | Except.error _ => []
    | Except.ok (s, lb2) => s :: collectServers k lb2

/-! ## JWT authentication middleware (src/api_gateway/src/middleware/auth.js) -/

/-- The claims of a decoded JWT, as read by the middleware. -/
structure JwtClaims where
  sub : String
  email : String
  roles : Option (List String)
  permissions : Option (List String)
  iat : Nat
  exp : Nat
deriving Repr, DecidableEq

/-- Result of `jwt.verify`: either decoded claims or an error carrying its
JS `err.name`. -/
inductive VerifyResult where
  | ok (claims : JwtClaims)
  | err (name : String)
deriving Repr, DecidableEq

/-- The `req.user` object the middleware installs on success. -/
structure AuthUser where
  id : String
  email : String
  roles : List String
  permissions : List String
  iat : Nat
  exp : Nat
deriving Repr, DecidableEq

/-- `req.user` is built from the decoded claims; absent `roles` and
`permissions` default to `[]` (the JS `decoded.roles || []`). -/
def userOfClaims (c : JwtClaims) : AuthUser :=
  { id := c.sub, email := c.email, roles := c.roles.getD [],
    permissions := c.permissions.getD [], iat := c.iat, exp := c.exp }

/-- `authHeader && authHeader.split(' ')[1]` followed by the `if (!token)`
guard: the bearer token is the second space-separated word of the
Authorization header, and a missing header, missing word, or empty word
all count as no token (JS falsiness of `undefined` and of the empty
string). -/
def extractToken (authHeader : Option String) : Option String :=
  match authHeader with
  | none => none
  | some h =>
    match (h.splitOn " ").get? 1 with
    | none => none
    | some t => if t = "" then none else some t

/-- What the middleware does with a request: either send a response with a
status and error code, or install `req.user` and call `next()`. -/
inductive AuthOutcome where
  | respond (status : Nat) (error : String)
  | proceed (user : AuthUser)
deriving Repr, DecidableEq

/-- `authenticateToken` from the middleware source, parameterized by the
`jwt.verify` outcome for each token string. -/
def authenticateToken (verify : String → VerifyResult) (authHeader : Option String) :
    AuthOutcome :=
  match extractToken authHeader with
  | none => AuthOutcome.respond 401 "Access token required"
  | some token =>
    match verify token with
    | VerifyResult.err n =>
      if n = "TokenExpiredError" then AuthOutcome.respond 401 "Token expired"
      else if n = "JsonWebTokenError" then AuthOutcome.respond 403 "Invalid token"
      else AuthOutcome.respond 403 "Token verification failed"
    | VerifyResult.ok c => AuthOutcome.proceed (userOfClaims c)

/-! ## Registration handler (src/api_gateway/src/routes/auth.js) -/

/-- A user record as stored in the in-memory `users` map. -/
structure StoredUser where
  id : String
  email : String
  username : String
  password : String
  firstName : String
  lastName : String
  roles : List String
  permissions : List String
  createdAt : String
  lastLogin : Option String
deriving Repr, DecidableEq

/-- The module-level state of the auth router: the `users` map (a JS `Map`
keyed by user id, modelled as an insertion-ordered association list) and
the `refreshTokens` set (modelled as a duplicate-free insertion-ordered
list). -/
structure AuthState where
  users : List (String × StoredUser)
  refreshTokens : List String
deriving Repr, DecidableEq

/-- The validated body of a registration request. -/
structure RegisterRequest where
  email : String
  username : String
  password : String
  firstName : Option String
  lastName : Option String
deriving Repr, DecidableEq

/-- The environment-dependent values the handler draws on: `Date.now()`
rendered as the user id, the bcrypt hash, the two signed tokens, and the
current timestamp string. -/
structure RegisterContext where
  userId : String
  hashedPassword : String
  accessToken : String
  refreshToken : String
  now : String
deriving Repr, DecidableEq

/-- The response sent by the handler: HTTP status plus the `error` code of
the JSON body, if any. -/
structure RegisterResponse where
  status : Nat
  error : Option String
deriving Repr, DecidableEq

/-- JS `Map.prototype.set`: replace the value when the key is present,
otherwise append a fresh entry. -/
def mapSet (m : List (String × StoredUser)) (k : String) (v : StoredUser) :
    List (String × StoredUser) :=
  if m.any (fun p => p.1 = k) then
    m.map (fun p => if p.1 = k then (k, v) else p)
  else m ++ [(k, v)]

/-- JS `Set.prototype.add`: append unless already present. -/
def setAdd (l : List String) (t : String) : List String :=
  if t ∈ l then l else l ++ [t]

/-- The user record the handler builds: roles `["user"]`, the default
permissions, `lastLogin` mutated to now before the response is sent (the
map stores the same object). -/
def mkRegisteredUser (req : RegisterRequest) (ctx : RegisterContext) : StoredUser :=
  { id := ctx.userId, email := req.email, username := req.username,
    password := ctx.hashedPassword, firstName := req.firstName.getD "",
    lastName := req.lastName.getD "", roles := ["user"],
    permissions := ["read:own_profile", "update:own_profile"],
    createdAt := ctx.now, lastLogin := some ctx.now }

/-- The `POST /register` handler body (after validation middleware): look
for an existing user with the same email or username; on a match answer
400 `USER_EXISTS` and leave the state alone; otherwise store the new
user, add the refresh token, and answer 201. -/
def registerHandler (st : AuthState) (req : RegisterRequest) (ctx : RegisterContext) :
    RegisterResponse × AuthState :=
  match (st.users.map Prod.snd).find?
      (fun u => u.email = req.email || u.username = req.username) with
  | some _ => ({ status := 400, error := some "USER_EXISTS" }, st)
  | none =>
    ({ status := 201, error := none },
     { users := mapSet st.users ctx.userId (mkRegisteredUser req ctx),
       refreshTokens := setAdd st.refreshTokens ctx.refreshToken })

/-! ## Evolution Engine (modelled from the spec)

The engine implementation (`evolution_engine/evolution_engine.py` and its
sibling modules) is named by the repository README and architecture
documents but is not present in the source tree.  Every definition below
is therefore modelled from the spec (sections 3 to 7), faithful to its
words.  Wall-clock budgets, the loop-level `timeout` termination and the
worker pool are not representable in a pure embedding: evaluation is a
pure function of the variant, which is exactly the ordering guarantee of
spec section 5.  Sub-scores and weights use exact rationals.  -/

/-- Modelled from the spec: a `Codebase` is an ordered mapping from
relative file path to source text (missing `evolution_engine` sources). -/
abbrev Codebase := List (String × String)

/-- A deterministic content hash of a string, folded into accumulator
`h0`. -/
def stringHash (s : String) (h0 : Nat) : Nat :=
  s.foldl (fun h c => (h * 31 + c.toNat + 1) % 1000000007) h0

/-- Modelled from the spec: `id` is a deterministic hash of the
serialized codebase content. -/
def contentHash (cb : Codebase) : Nat :=
  cb.foldl (fun h p => stringHash p.2 (stringHash p.1 (h * 131 % 1000000007))) 7

/-- Modelled from the spec: the weighted multi-dimensional fitness of a
variant; `total` is the weighted sum of the four sub-scores. -/
structure FitnessScore where
  performance : ℚ
  security : ℚ
  maintainability : ℚ
  test_coverage : ℚ
  total : ℚ
deriving Repr, DecidableEq

/-- The four evaluator weights supplied by configuration. -/
structure Weights where
  performance : ℚ
  security : ℚ
  maintainability : ℚ
  test_coverage : ℚ
deriving Repr, DecidableEq

/-- The sum of the four configured weights (must be 1). -/
def weightSum (w : Weights) : ℚ :=
  w.performance + w.security + w.maintainability + w.test_coverage

/-- The single smart constructor for `FitnessScore`: `total` is always
recomputed from the sub-scores, never set independently. -/
def mkFitnessScore (w : Weights) (p s m c : ℚ) : FitnessScore :=
  { performance := p, security := s, maintainability := m, test_coverage := c,
    total := w.performance * p + w.security * s + w.maintainability * m +
      w.test_coverage * c }

/-- Modelled from the spec: one individual of the search population. -/
structure CodeVariant where
  id : Nat
  codebase : Codebase
  fitness : Option FitnessScore
  generation : Nat
  lineage : Option Nat
deriving Repr, DecidableEq

/-- `fitness.total` of a variant, `0` when unscored. -/
def totalOf (v : CodeVariant) : ℚ :=
  match v.fitness with
  | some f => f.total
  | none => 0

/-- Modelled from the spec: the closed enumeration of structural mutation
kinds. -/
inductive MutationKind where
  | refactorSimplify
  | deadCodeElimination
  | securityHardening
  | performanceSubstitution
deriving Repr, DecidableEq

/-- Picking one of the four mutation kinds from a random number. -/
def mutationKindOfNat (n : Nat) : MutationKind :=
  match n % 4 with
  | 0 => .refactorSimplify
  | 1 => .deadCodeElimination
  | 2 => .securityHardening
  | _ => .performanceSubstitution

/-- Modelled from the spec: mutation failure cases. -/
inductive MutationError where
  | SyntaxInvalid
deriving Repr, DecidableEq

/-- Modelled from the spec: the outbound `MutationProvider` capability —
a parse check over a codebase and the raw structural transformation that
produces the emitted codebase (files that fail to parse pass through it
unchanged, which is the provider's own business). -/
structure MutationProvider where
  parses : Codebase → Bool
  transform : Codebase → MutationKind → Nat → Codebase

/-- Modelled from the spec:
`mutate(variant, kind, rng_seed) -> Result<CodeVariant, MutationError>`.
The emitted codebase is re-parsed; when re-parsing fails the mutation is
rejected with `MutationError.SyntaxInvalid`.  A pure function of its
inputs. -/
def mutate (mp : MutationProvider) (v : CodeVariant) (kind : MutationKind)
    (rngSeed : Nat) : Except MutationError CodeVariant :=
  let emitted := mp.transform v.codebase kind rngSeed
  if mp.parses emitted then
    Except.ok
      { id := contentHash emitted, codebase := emitted, fitness := none,
        generation := v.generation + 1, lineage := some v.id }
  else
    Except.error MutationError.SyntaxInvalid

/-- Modelled from the spec: evaluator failure cases. -/
inductive EvaluationError where
  | Timeout
  | CrashedOrUnparseable
deriving Repr, DecidableEq

/-- Modelled from the spec: the four independent evaluators, each scoring
a variant or failing.  The time box is inside each evaluator (the
`Timeout` outcome); the `budget` duration itself is wall-clock and not
modelled. -/
structure EvaluatorSet where
  performance : CodeVariant → Except EvaluationError ℚ
  security : CodeVariant → Except EvaluationError ℚ
  maintainability : CodeVariant → Except EvaluationError ℚ
  test_coverage : CodeVariant → Except EvaluationError ℚ

/-- One dimension's contribution: a timed-out dimension participates with
the worst-case score `0`, a crashed dimension discards the variant. -/
def dimScore : Except EvaluationError ℚ → Option ℚ
  | Except.ok q => some q
  | Except.error EvaluationError.Timeout => some 0
  | Except.error EvaluationError.CrashedOrUnparseable => none

/-- The numeric value a non-crashed dimension contributes. -/
def dimValue : Except EvaluationError ℚ → ℚ
  | Except.ok q => q
  | Except.error _ => 0

/-- Whether a dimension outcome is `CrashedOrUnparseable`. -/
def isCrashed : Except EvaluationError ℚ → Bool
  | Except.error EvaluationError.CrashedOrUnparseable => true
  | _ => false

/-- Modelled from the spec: the aggregate `FitnessScore` is assembled once
all four dimensions have returned or timed out; any crashed dimension
discards the whole variant (`none`). -/
def assembleFitness (w : Weights) (es : EvaluatorSet) (v : CodeVariant) :
    Option FitnessScore :=
  match dimScore (es.performance v), dimScore (es.security v),
      dimScore (es.maintainability v), dimScore (es.test_coverage v) with
  | some p, some s, some m, some c => some (mkFitnessScore w p s m c)
  | _, _, _, _ => none

/-- Modelled from the spec: the variant store and cache.  `cache` maps a
variant id to its evaluation outcome (`none` records a discarded id, so
evaluators are never re-invoked for identical content); `evalCalls`
counts actual evaluator-set invocations, the call-count instrumentation
of spec section 8. -/
structure Store where
  cache : List (Nat × Option FitnessScore)
  evalCalls : Nat
deriving Repr, DecidableEq

/-- Modelled from the spec:
`get_or_evaluate(variant, evaluator_set) -> CodeVariant` — on a cache hit
the stored `FitnessScore` is reused verbatim with no evaluator invocation;
on a miss the evaluators run once and the outcome is memoized.  A `none`
result is a variant discarded before it ever enters the population. -/
def get_or_evaluate (es : EvaluatorSet) (w : Weights) (st : Store)
    (v : CodeVariant) : Option CodeVariant × Store :=
  match st.cache.lookup v.id with
  | some (some f) => (some { v with fitness := some f }, st)
  | some none => (none, st)
  | none =>
    let r := assembleFitness w es v
    (r.map (fun f => { v with fitness := some f }),
     { cache := (v.id, r) :: st.cache, evalCalls := st.evalCalls + 1 })

/-- A 64-bit linear congruential step: the deterministic rng stream. -/
def lcg (s : Nat) : Nat :=
  (6364136223846793005 * s + 1442695040888963407) % (2 ^ 64)

/-- Modelled from the spec: the configurable, mutually exclusive selection
strategies. -/
inductive SelectionStrategy where
  | elitism
  | tournament (k : Nat)
  | roulette
deriving Repr, DecidableEq

/-- The elitism ordering: `total` fitness descending, ties broken by lower
generation number, then by `id`, for full determinism. -/
def rankBefore (a b : CodeVariant) : Bool :=
  if totalOf a ≠ totalOf b then decide (totalOf b < totalOf a)
  else if a.generation ≠ b.generation then decide (a.generation < b.generation)
  else decide (a.id ≤ b.id)

/-- Insertion into a list sorted by `rankBefore`. -/
def insertRanked (v : CodeVariant) : List CodeVariant → List CodeVariant
  | [] => [v]
  | w :: ws => if rankBefore v w then v :: w :: ws else w :: insertRanked v ws

/-- Insertion sort by `rankBefore` (best variant first). -/
def rankSort : List CodeVariant → List CodeVariant
  | [] => []
  | v :: vs => insertRanked v (rankSort vs)

/-- One tournament: sample `k` variants uniformly (with replacement) and
keep the highest `total`. -/
def tournamentOnce (pop : List CodeVariant) : Nat → Nat → Option CodeVariant × Nat
  | 0, rng => (none, rng)
  | k + 1, rng =>
    let r := lcg rng
    let cand := pop.get? (if pop.length = 0 then 0 else r % pop.length)
    match tournamentOnce pop k r with
    | (none, r2) => (cand, r2)
    | (some b, r2) =>
      match cand with
      | none => (some b, r2)
      | some v => (some (if totalOf b < totalOf v then v else b), r2)

/-- Tournament selection: `count` repeated tournaments of size `k`. -/
def tournamentSelect (pop : List CodeVariant) (k : Nat) :
    Nat → Nat → List CodeVariant × Nat
  | 0, rng => ([], rng)
  | c + 1, rng =>
    let (pick, r1) := tournamentOnce pop k rng
    let (rest, r2) := tournamentSelect pop k c r1
    (match pick with
     | some v => v :: rest
     | none => rest, r2)

/-- The non-negative roulette weight of a variant (`total` shifted to be
non-negative if needed). -/
def shiftedWeight (v : CodeVariant) : ℚ := max 0 (totalOf v)

/-- Walk the cumulative roulette weights until target `t` is inside one
variant's slice; return it and the remaining pool. -/
def pickByWeight : List CodeVariant → ℚ → Option (CodeVariant × List CodeVariant)
  | [], _ => none
  | v :: vs, t =>
    if t < shiftedWeight v then some (v, vs)
    else
      match pickByWeight vs (t - shiftedWeight v) with
      | some (c, rest) => some (c, v :: rest)
      | none => none

/-- The random roulette target in `[0, total weight)` drawn from one rng
value. -/
def rouletteTarget (pop : List CodeVariant) (r : Nat) : ℚ :=
  ((r % 1048576 : Nat) : ℚ) / 1048576 *
    pop.foldl (fun a v => a + shiftedWeight v) 0

/-- One roulette draw: a random target in `[0, total weight)`; if every
weight is zero the first variant is taken. -/
def rouletteOnce (pop : List CodeVariant) (rng : Nat) :
    Option (CodeVariant × List CodeVariant) × Nat :=
  let r := lcg rng
  match pickByWeight pop (rouletteTarget pop r) with
  | some p => (some p, r)
  | none =>
    match pop with
    | [] => (none, r)
    | v :: vs => (some (v, vs), r)

/-- Roulette-wheel selection, sampled without replacement up to `count`. -/
def rouletteSelect : List CodeVariant → Nat → Nat → List CodeVariant × Nat
  | _, 0, rng => ([], rng)
  | pop, c + 1, rng =>
    match rouletteOnce pop rng with
    | (none, r1) => ([], r1)
    | (some (v, rest), r1) =>
      let (more, r2) := rouletteSelect rest c r1
      (v :: more, r2)

/-- Modelled from the spec:
`select(population, count) -> Vec<CodeVariant>` under the configured
strategy. -/
def select (strat : SelectionStrategy) (pop : List CodeVariant) (count : Nat)
    (rng : Nat) : List CodeVariant × Nat :=
  match strat with
  | SelectionStrategy.elitism => ((rankSort pop).take count, rng)
  | SelectionStrategy.tournament k => tournamentSelect pop k count rng
  | SelectionStrategy.roulette => rouletteSelect pop count rng

/-- Produce one child from a parent: a random mutation kind and seed from
the rng stream; a rejected mutation falls back to the unmutated parent. -/
def mutateChild (mp : MutationProvider) (parent : CodeVariant) (rng : Nat) :
    CodeVariant × Nat :=
  let r1 := lcg rng
  let kind := mutationKindOfNat r1
  let r2 := lcg r1
  match mutate mp parent kind r2 with
  | Except.ok child => (child, r2)
  | Except.error _ => (parent, r2)

/-- `n` children of one parent, each with a distinct random kind drawn
from the rng stream. -/
def mutateOffspring (mp : MutationProvider) (parent : CodeVariant) :
    Nat → Nat → List CodeVariant × Nat
  | 0, rng => ([], rng)
  | n + 1, rng =>
    let (c, r1) := mutateChild mp parent rng
    let (rest, r2) := mutateOffspring mp parent n r1
    (c :: rest, r2)

/-- `offspringCount` children for every parent. -/
def mutateAll (mp : MutationProvider) (offspringCount : Nat) :
    List CodeVariant → Nat → List CodeVariant × Nat
  | [], rng => ([], rng)
  | p :: ps, rng =>
    let (cs, r1) := mutateOffspring mp p offspringCount rng
    let (rest, r2) := mutateAll mp offspringCount ps r1
    (cs ++ rest, r2)

/-- Submit every variant to the store; discarded variants
(`CrashedOrUnparseable`) never reach the output. -/
def evaluateAll (es : EvaluatorSet) (w : Weights) :
    List CodeVariant → Store → List CodeVariant × Store
  | [], st => ([], st)
  | v :: vs, st =>
    match get_or_evaluate es w st v with
    | (some ev, st1) =>
      let (rest, st2) := evaluateAll es w vs st1
      (ev :: rest, st2)
    | (none, st1) => evaluateAll es w vs st1

/-- Keep the first variant with each id (the population is unique by
id). -/
def dedupeById : List CodeVariant → List CodeVariant
  | [] => []
  | v :: vs => v :: (dedupeById vs).filter (fun w => w.id != v.id)

/-- Fold the newly scored variants into the running champion, keeping the
highest `total` ever observed. -/
def updateChampion : CodeVariant → List CodeVariant → CodeVariant
  | c, [] => c
  | c, v :: vs => updateChampion (if totalOf c < totalOf v then v else c) vs

/-- Modelled from the spec: `EngineConfig` (section 6).  The wall-clock
`timeout` and `max_parallel_evaluations` govern scheduling only and are
not representable here; `parent_count` and `offspring_per_parent` are the
configured constants of sections 4.5 and 9. -/
structure EngineConfig where
  population_size : Nat
  max_generations : Nat
  convergence_threshold : ℚ
  stagnation_limit : Nat
  selection_strategy : SelectionStrategy
  weights : Weights
  parent_count : Nat
  offspring_per_parent : Nat
deriving Repr, DecidableEq

/-- Modelled from the spec: the fatal configuration failures (invalid
weights, zero population size). -/
inductive ConfigurationError where
  | InvalidWeights
  | ZeroPopulationSize
deriving Repr, DecidableEq

/-- Weights must sum to 1 and the population must be non-empty; checked
before any work starts. -/
def validateConfig (cfg : EngineConfig) : Except ConfigurationError Unit :=
  if weightSum cfg.weights ≠ 1 then Except.error ConfigurationError.InvalidWeights
  else if cfg.population_size = 0 then
    Except.error ConfigurationError.ZeroPopulationSize
  else Except.ok ()

/-- Modelled from the spec: the per-run engine state — the population, the
running champion retained outside it, the store, the rng stream, the
generation counter and the stagnation counter. -/
structure EngineState where
  population : List CodeVariant
  champion : CodeVariant
  store : Store
  rng : Nat
  generations_run : Nat
  stagnation : Nat

/-- Modelled from the spec: loop termination reasons. -/
inductive TerminationReason where
  | Converged
  | MaxGenerations
  | Timeout
  | NoImprovement
deriving Repr, DecidableEq

/-- Modelled from the spec: the value of one `optimize` run. -/
structure OptimizedResult where
  best_variant : CodeVariant
  generations_run : Nat
  termination_reason : TerminationReason

/-- Package the current champion as the run's result. -/
def mkResult (st : EngineState) (r : TerminationReason) : OptimizedResult :=
  { best_variant := st.champion, generations_run := st.generations_run,
    termination_reason := r }

/-- The seed codebase as the first variant. -/
def seedVariant (cb : Codebase) : CodeVariant :=
  { id := contentHash cb, codebase := cb, fitness := none, generation := 0,
    lineage := none }

/-- Modelled from the spec (section 4.5 `Initializing`): the seed
population is the original plus `population_size - 1` mutated copies,
failed mutations falling back to duplicating the original; everything is
evaluated through the store, and the champion starts as the evaluated
seed.  The spec leaves the degenerate case of a seed that is itself
discarded open; section 7 still demands a result, so the model then keeps
the seed with a worst-case all-zero score. -/
def initState (cfg : EngineConfig) (mp : MutationProvider) (es : EvaluatorSet)
    (cb : Codebase) (rngSeed : Nat) : EngineState :=
  let seedV := seedVariant cb
  let muts := mutateOffspring mp seedV (cfg.population_size - 1) rngSeed
  let se := get_or_evaluate es cfg.weights ⟨[], 0⟩ seedV
  let champ0 :=
    match se.1 with
    | some v => v
    | none => { seedV with fitness := some (mkFitnessScore cfg.weights 0 0 0 0) }
  let ev := evaluateAll es cfg.weights muts.1 se.2
  let base :=
    match se.1 with
    | some v => v :: ev.1
    | none => ev.1
  { population := (rankSort (dedupeById base)).take cfg.population_size
    champion := updateChampion champ0 ev.1
    store := ev.2
    rng := muts.2
    generations_run := 0
    stagnation := 0 }

/-- Modelled from the spec (section 4.5): one generation — select
parents, mutate each into `offspring_per_parent` children with fallback
to the parent, evaluate the children through the store, let parents
survive alongside the children, bound the population, and fold the new
scores into the champion. -/
def genStep (cfg : EngineConfig) (mp : MutationProvider) (es : EvaluatorSet)
    (st : EngineState) : EngineState :=
  let sel := select cfg.selection_strategy st.population cfg.parent_count st.rng
  let mu := mutateAll mp cfg.offspring_per_parent sel.1 sel.2
  let ev := evaluateAll es cfg.weights mu.1 st.store
  let champ := updateChampion st.champion ev.1
  { population := (rankSort (dedupeById (sel.1 ++ ev.1))).take cfg.population_size
    champion := champ
    store := ev.2
    rng := mu.2
    generations_run := st.generations_run + 1
    stagnation := if champ.id = st.champion.id then st.stagnation + 1 else 0 }

/-- The engine state after `g` generations of one run. -/
def stateAt (cfg : EngineConfig) (mp : MutationProvider) (es : EvaluatorSet)
    (cb : Codebase) (rngSeed : Nat) : Nat → EngineState
  | 0 => initState cfg mp es cb rngSeed
  | g + 1 => genStep cfg mp es (stateAt cfg mp es cb rngSeed g)

/-- Modelled from the spec: the generation loop with its termination
conditions checked at the top of each generation, first true wins
(`MaxGenerations`, then `Converged`, then `NoImprovement`; the wall-clock
`Timeout` has no pure counterpart).  The fuel starts above
`max_generations`, so the loop always terminates through a condition. -/
def loop (cfg : EngineConfig) (mp : MutationProvider) (es : EvaluatorSet) :
    Nat → EngineState → OptimizedResult
  | 0, st => mkResult st TerminationReason.MaxGenerations
  | fuel + 1, st =>
    if cfg.max_generations ≤ st.generations_run then
      mkResult st TerminationReason.MaxGenerations
    else if cfg.convergence_threshold ≤ totalOf st.champion then
      mkResult st TerminationReason.Converged
    else if cfg.stagnation_limit ≤ st.stagnation then
      mkResult st TerminationReason.NoImprovement
    else loop cfg mp es fuel (genStep cfg mp es st)

/-- Modelled from the spec:
`optimize(codebase, config) -> OptimizedResult` — validate the
configuration before any work, then run the generation loop; only a
`ConfigurationError` is ever surfaced. -/
def optimize (cb : Codebase) (cfg : EngineConfig) (mp : MutationProvider)
    (es : EvaluatorSet) (rngSeed : Nat) : Except ConfigurationError OptimizedResult :=
  match validateConfig cfg with
  | Except.error e => Except.error e
  | Except.ok _ =>
    Except.ok (loop cfg mp es (cfg.max_generations + 1)
      (initState cfg mp es cb rngSeed))

/-! ## Consistency predicates and witness fixtures -/

/-- A `FitnessScore` whose `total` equals the weighted sum of its four
sub-scores under the configured weights. -/
def consistentTotal (w : Weights) (f : FitnessScore) : Prop :=
  f.total = w.performance * f.performance + w.security * f.security +
    w.maintainability * f.maintainability + w.test_coverage * f.test_coverage

/-- A variant whose stored fitness, when present, has a consistent
total. -/
def fitnessConsistent (w : Weights) (v : CodeVariant) : Prop :=
  ∀ f, v.fitness = some f → consistentTotal w f

/-- Every score memoized in the store has a consistent total. -/
def storeConsistent (w : Weights) (st : Store) : Prop :=
  ∀ p ∈ st.cache, ∀ f, p.2 = some f → consistentTotal w f

/-- A mutation provider for concrete witnesses: everything parses and the
transformation is the identity. -/
def mpId : MutationProvider := ⟨fun _ => true, fun cb _ _ => cb⟩

/-- An evaluator set for concrete witnesses: every dimension scores 1. -/
def esOne : EvaluatorSet :=
  ⟨fun _ => Except.ok 1, fun _ => Except.ok 1, fun _ => Except.ok 1,
   fun _ => Except.ok 1⟩

/-- Equal quarter weights (sum 1). -/
def wQuarter : Weights := ⟨1/4, 1/4, 1/4, 1/4⟩

/-- A well-formed configuration for concrete witnesses. -/
def cfgOk : EngineConfig :=
  { population_size := 2, max_generations := 1, convergence_threshold := 2,
    stagnation_limit := 2, selection_strategy := SelectionStrategy.elitism,
    weights := wQuarter, parent_count := 1, offspring_per_parent := 1 }

/-- A configuration whose weights sum to 9/10. -/
def cfgBadWeights : EngineConfig :=
  { cfgOk with weights := ⟨9/40, 9/40, 9/40, 9/40⟩ }

/-- A concrete unscored variant for store witnesses. -/
def vWitness : CodeVariant :=
  { id := 42, codebase := [], fitness := none, generation := 0, lineage := none }

/-- An evaluator set whose performance dimension always times out. -/
def esTimeoutPerf : EvaluatorSet :=
  ⟨fun _ => Except.error EvaluationError.Timeout, fun _ => Except.ok 1,
   fun _ => Except.ok 1, fun _ => Except.ok 1⟩

/-- A mutation provider that accepts only the empty codebase and whose
transformation always emits a non-empty (hence rejected) codebase. -/
def mpSeedOnly : MutationProvider :=
  ⟨fun cb => cb.isEmpty, fun _ _ _ => [("f.py", "x")]⟩

/-! ## Theorems: LoadBalancer -/

theorem getNextServer_of_ne (lb : LoadBalancer) (h : lb.servers.length ≠ 0) :
    getNextServer lb = Except.ok (lb.servers.get? lb.currentIndex,
      { lb with currentIndex := (lb.currentIndex + 1) % lb.servers.length }) := by
  simp [getNextServer, h]

theorem collectServers_step (s : List String) (i : Nat) (h : s.length ≠ 0) (k : Nat) :
    collectServers (k + 1) ⟨s, i⟩ =
      s.get? i :: collectServers k ⟨s, (i + 1) % s.length⟩ := by
  simp only [collectServers, getNextServer_of_ne ⟨s, i⟩ h]

theorem collectServers_no_wrap (s : List String) :
    ∀ k i, k + i ≤ s.length → 0 < s.length →
      collectServers k ⟨s, i⟩ = ((s.drop i).take k).map some := by
  intro k
  induction k with
  | zero => intro i _ _; simp [collectServers]
  | succ k ih =>
    intro i hk hn
    have hi : i < s.length := by omega
    rw [collectServers_step s i (Nat.pos_iff_ne_zero.mp hn)]
    rw [List.drop_eq_getElem_cons hi]
    rcases Nat.lt_or_ge (i + 1) s.length with h1 | h1
    · rw [Nat.mod_eq_of_lt h1, ih (i + 1) (by omega) hn,
        List.take_succ_cons, List.map_cons,
        List.get?_eq_getElem?, List.getElem?_eq_getElem hi]
    · have hk0 : k = 0 := by omega
      subst hk0
      simp only [collectServers, List.take_succ_cons, List.take_zero,
        List.map_cons, List.map_nil]
      rw [List.get?_eq_getElem?, List.getElem?_eq_getElem hi]

theorem collectServers_split (s : List String) :
    ∀ a b i, 0 < s.length → i < s.length →
      collectServers (a + b) ⟨s, i⟩ =
        collectServers a ⟨s, i⟩ ++ collectServers b ⟨s, (i + a) % s.length⟩ := by
  intro a
  induction a with
  | zero =>
    intro b i _ hi
    simp [collectServers, Nat.mod_eq_of_lt hi]
  | succ a ih =>
    intro b i hn hi
    have hne : s.length ≠ 0 := Nat.pos_iff_ne_zero.mp hn
    have hstep : a + 1 + b = (a + b) + 1 := by omega
    rw [hstep, collectServers_step s i hne,
      ih b ((i + 1) % s.length) hn (Nat.mod_lt _ hn),
      collectServers_step s i hne]
    have hmod : ((i + 1) % s.length + a) % s.length = (i + (a + 1)) % s.length := by
      rw [Nat.mod_add_mod]
      congr 1
      omega
    rw [hmod]
    simp

theorem collectServers_rotation (s : List String) (i : Nat) (hi : i < s.length) :
    collectServers s.length ⟨s, i⟩ = (s.drop i ++ s.take i).map some := by
  have hn : 0 < s.length := Nat.lt_of_le_of_lt (Nat.zero_le i) hi
  have hsplit : s.length = (s.length - i) + i := by omega
  rw [hsplit, collectServers_split s (s.length - i) i i hn hi]
  have h1 : collectServers (s.length - i) ⟨s, i⟩ = (s.drop i).map some := by
    rw [collectServers_no_wrap s (s.length - i) i (by omega) hn]
    congr 1
    exact List.take_of_length_le (by simp)
  have h2 : (i + (s.length - i)) % s.length = 0 := by
    have : i + (s.length - i) = s.length := by omega
    simp [this]
  rw [h1, h2]
  have h3 : collectServers i ⟨s, 0⟩ = (s.take i).map some := by
    rw [collectServers_no_wrap s i 0 (by omega) hn]
    simp
  rw [h3, List.map_append]

/-- C8: `getNextServer()` throws `No servers available` exactly when the
server list is empty; otherwise it returns the server at `currentIndex`
and advances `currentIndex` modulo the list length, so after every call
the index is again below the list length; and from any in-range index,
`n` consecutive calls on a fixed list of `n` servers return the rotation
of the server list starting at `currentIndex` — every registered server
exactly once, in round-robin order. -/
theorem loadBalancer_round_robin (lb : LoadBalancer) :
    (getNextServer lb = Except.error "No servers available" ↔ lb.servers = []) ∧
    (∀ s lb2, getNextServer lb = Except.ok (s, lb2) →
      s = lb.servers.get? lb.currentIndex ∧
      lb2.servers = lb.servers ∧
      lb2.currentIndex = (lb.currentIndex + 1) % lb.servers.length ∧
      lb2.currentIndex < lb.servers.length) ∧
    (lb.currentIndex < lb.servers.length →
      collectServers lb.servers.length lb =
        (lb.servers.drop lb.currentIndex ++ lb.servers.take lb.currentIndex).map some ∧
      (collectServers lb.servers.length lb).Perm (lb.servers.map some)) := by
  refine ⟨?_, ?_, ?_⟩
  · constructor
    · intro h
      by_contra hne
      have hlen : lb.servers.length ≠ 0 := by
        simpa [List.length_eq_zero] using hne
      rw [getNextServer_of_ne lb hlen] at h
      exact absurd h (by simp)
    · intro h
      simp [getNextServer, h]
  · intro s lb2 h
    have hlen : lb.servers.length ≠ 0 := by
      intro h0
      rw [getNextServer] at h
      simp [h0] at h
    rw [getNextServer_of_ne lb hlen] at h
    have hs : s = lb.servers.get? lb.currentIndex := by
      have := congrArg (fun p => p.1) (Except.ok.inj h)
      simpa using this.symm
    have hlb2 : lb2 = { lb with currentIndex := (lb.currentIndex + 1) % lb.servers.length } := by
      have := congrArg (fun p => p.2) (Except.ok.inj h)
      simpa using this.symm
    subst hlb2
    exact ⟨hs, rfl, rfl, Nat.mod_lt _ (Nat.pos_iff_ne_zero.mpr hlen)⟩
  · intro hi
    obtain ⟨svs, idx⟩ := lb
    have hrot := collectServers_rotation svs idx hi
    refine ⟨hrot, ?_⟩
    rw [hrot]
    exact List.Perm.map some
      ((List.perm_append_comm).trans (by rw [List.take_append_drop]))

theorem loadBalancer_round_robin_witness :
    collectServers 3 ⟨["a", "b", "c"], 1⟩ =
      ((["a", "b", "c"] : List String).drop 1 ++
        (["a", "b", "c"] : List String).take 1).map some ∧
    (collectServers 3 ⟨["a", "b", "c"], 1⟩).Perm
      ((["a", "b", "c"] : List String).map some) :=
  (loadBalancer_round_robin ⟨["a", "b", "c"], 1⟩).2.2 (by decide)

/-! ## Theorems: authentication middleware -/

/-- C9: `authenticateToken` answers 401 without continuing the chain when
the Authorization header carries no bearer token; a verification failure
named `TokenExpiredError` answers 401 and any other failure answers 403;
and the handler chain continues, with `req.user` populated from the
decoded claims, exactly when verification succeeds. -/
theorem authenticateToken_outcomes (verify : String → VerifyResult)
    (h : Option String) :
    (extractToken h = none →
      authenticateToken verify h = AuthOutcome.respond 401 "Access token required") ∧
    (∀ t, extractToken h = some t →
      (∀ c, verify t = VerifyResult.ok c →
        authenticateToken verify h = AuthOutcome.proceed (userOfClaims c)) ∧
      (∀ n, verify t = VerifyResult.err n →
        ∃ msg, authenticateToken verify h =
          AuthOutcome.respond (if n = "TokenExpiredError" then 401 else 403) msg)) ∧
    (∀ u, authenticateToken verify h = AuthOutcome.proceed u →
      ∃ t c, extractToken h = some t ∧ verify t = VerifyResult.ok c ∧
        u = userOfClaims c) := by
  refine ⟨?_, ?_, ?_⟩
  · intro he
    simp [authenticateToken, he]
  · intro t ht
    refine ⟨?_, ?_⟩
    · intro c hc
      simp [authenticateToken, ht, hc]
    · intro n hn
      by_cases h1 : n = "TokenExpiredError"
      · exact ⟨"Token expired", by simp [authenticateToken, ht, hn, h1]⟩
      · by_cases h2 : n = "JsonWebTokenError"
        · exact ⟨"Invalid token", by simp [authenticateToken, ht, hn, h1, h2]⟩
        · exact ⟨"Token verification failed",
            by simp [authenticateToken, ht, hn, h1, h2]⟩
  · intro u hu
    cases he : extractToken h with
    | none => simp [authenticateToken, he] at hu
    | some t =>
      cases hv : verify t with
      | err n =>
        simp only [authenticateToken, he, hv] at hu
        split_ifs at hu
      | ok c =>
        simp only [authenticateToken, he, hv, AuthOutcome.proceed.injEq] at hu
        exact ⟨t, c, rfl, hv, hu.symm⟩

theorem authenticateToken_outcomes_witness :
    authenticateToken (fun _ => VerifyResult.err "JsonWebTokenError") none =
      AuthOutcome.respond 401 "Access token required" :=
  (authenticateToken_outcomes (fun _ => VerifyResult.err "JsonWebTokenError") none).1
    rfl

/-! ## Theorems: registration handler -/

/-- C10: when a stored user already has the requested email or username
the handler answers 400 `USER_EXISTS` and leaves both the user store and
the refresh-token set untouched; otherwise it answers 201, appends
exactly one user whose roles are `["user"]` (the generated id being
fresh), and adds exactly one refresh token (the generated token being
fresh). -/
theorem registerHandler_outcomes (st : AuthState) (req : RegisterRequest)
    (ctx : RegisterContext) :
    ((∃ u ∈ st.users.map Prod.snd, u.email = req.email ∨ u.username = req.username) →
      registerHandler st req ctx = ({ status := 400, error := some "USER_EXISTS" }, st)) ∧
    ((∀ u ∈ st.users.map Prod.snd, u.email ≠ req.email ∧ u.username ≠ req.username) →
      (registerHandler st req ctx).1 = { status := 201, error := none } ∧
      (mkRegisteredUser req ctx).roles = ["user"] ∧
      (ctx.userId ∉ st.users.map Prod.fst →
        (registerHandler st req ctx).2.users =
          st.users ++ [(ctx.userId, mkRegisteredUser req ctx)] ∧
        (registerHandler st req ctx).2.users.length = st.users.length + 1) ∧
      (ctx.refreshToken ∉ st.refreshTokens →
        (registerHandler st req ctx).2.refreshTokens =
          st.refreshTokens ++ [ctx.refreshToken] ∧
        (registerHandler st req ctx).2.refreshTokens.length =
          st.refreshTokens.length + 1)) := by
  constructor
  · rintro ⟨u, hu, hp⟩
    unfold registerHandler
    cases hf : (st.users.map Prod.snd).find?
        (fun u => u.email = req.email || u.username = req.username) with
    | some w => rfl
    | none =>
      rw [List.find?_eq_none] at hf
      exact absurd hp (by simpa using hf u hu)
  · intro hno
    have hf : (st.users.map Prod.snd).find?
        (fun u => u.email = req.email || u.username = req.username) = none := by
      rw [List.find?_eq_none]
      intro u hu
      have := hno u hu
      simp [this.1, this.2]
    refine ⟨by simp [registerHandler, hf], rfl, ?_, ?_⟩
    · intro hid
      have hany : st.users.any (fun p => p.1 = ctx.userId) = false := by
        rw [Bool.eq_false_iff]
        intro hc
        rw [List.any_eq_true] at hc
        obtain ⟨p, hpmem, hpk⟩ := hc
        exact hid (by
          simp only [decide_eq_true_eq] at hpk
          exact hpk ▸ List.mem_map_of_mem Prod.fst hpmem)
      have husers : (registerHandler st req ctx).2.users =
          st.users ++ [(ctx.userId, mkRegisteredUser req ctx)] := by
        simp [registerHandler, hf, mapSet, hany]
      exact ⟨husers, by rw [husers]; simp⟩
    · intro htok
      have hset : (registerHandler st req ctx).2.refreshTokens =
          st.refreshTokens ++ [ctx.refreshToken] := by
        simp [registerHandler, hf, setAdd, htok]
      exact ⟨hset, by rw [hset]; simp⟩

theorem registerHandler_outcomes_witness :
    (registerHandler ⟨[], []⟩
        ⟨"a@b.c", "alice", "Str0ng!pw", none, none⟩
        ⟨"1700000000000", "hash", "acc", "ref", "t0"⟩).1 =
      { status := 201, error := none } :=
  ((registerHandler_outcomes ⟨[], []⟩
      ⟨"a@b.c", "alice", "Str0ng!pw", none, none⟩
      ⟨"1700000000000", "hash", "acc", "ref", "t0"⟩).2 (by simp)).1

/-! ## Theorems: engine configuration and error policy -/

theorem optimize_always_ok (cfg : EngineConfig) (hw : weightSum cfg.weights = 1)
    (hp : cfg.population_size ≠ 0) (cb : Codebase) (mp : MutationProvider)
    (es : EvaluatorSet) (seed : Nat) :
    ∃ r, optimize cb cfg mp es seed = Except.ok r := by
  have hv : validateConfig cfg = Except.ok () := by
    simp [validateConfig, hw, hp]
  exact ⟨_, by unfold optimize; rw [hv]⟩
/-- C1: an `evaluator_weights` sum different from 1 makes `optimize` fail
with `ConfigurationError.InvalidWeights` for every codebase, mutation
provider, evaluator set and seed alike — before any mutation or
evaluation work can depend on them; and under a valid configuration
`optimize` returns `Except.ok` for every mutation provider and evaluator
set, however they fail per variant, so a `ConfigurationError` is the only
failure `optimize` ever surfaces. -/
theorem optimize_configuration_policy (cfg : EngineConfig) :
    (weightSum cfg.weights ≠ 1 →
      ∀ cb mp es seed, optimize cb cfg mp es seed =
        Except.error ConfigurationError.InvalidWeights) ∧
    (weightSum cfg.weights = 1 → cfg.population_size ≠ 0 →
      ∀ cb mp es seed, ∃ r, optimize cb cfg mp es seed = Except.ok r) := by
  constructor
  · intro hw cb mp es seed
    simp [optimize, validateConfig, hw]
  · intro hw hp cb mp es seed
    exact optimize_always_ok cfg hw hp cb mp es seed

theorem optimize_configuration_policy_witness :
    optimize [] cfgBadWeights mpId esOne 0 =
      Except.error ConfigurationError.InvalidWeights :=
  (optimize_configuration_policy cfgBadWeights).1
    (by norm_num [weightSum, cfgBadWeights, cfgOk]) [] mpId esOne 0

/-! ## Theorems: variant store and cache -/

theorem get_or_evaluate_preserves_lookup (es : EvaluatorSet) (w : Weights)
    (st : Store) (v : CodeVariant) (k : Nat) (val : Option FitnessScore)
    (h : st.cache.lookup k = some val) :
    (get_or_evaluate es w st v).2.cache.lookup k = some val := by
  cases hc : st.cache.lookup v.id with
  | some val2 =>
    cases val2 with
    | some f0 => simpa [get_or_evaluate, hc] using h
    | none => simpa [get_or_evaluate, hc] using h
  | none =>
    have hne : (k == v.id) = false := by
      rw [beq_eq_false_iff_ne]
      intro hkv
      rw [hkv] at h
      rw [h] at hc
      cases hc
    simp only [get_or_evaluate, hc, List.lookup, hne]
    exact h

theorem evaluateAll_preserves_lookup (es : EvaluatorSet) (w : Weights) :
    ∀ (l : List CodeVariant) (st : Store) (k : Nat) (val : Option FitnessScore),
      st.cache.lookup k = some val →
      (evaluateAll es w l st).2.cache.lookup k = some val := by
  intro l
  induction l with
  | nil => intro st k val h; exact h
  | cons v vs ih =>
    intro st k val h
    have h1 := get_or_evaluate_preserves_lookup es w st v k val h
    rcases hge : get_or_evaluate es w st v with ⟨o, st1⟩
    rw [hge] at h1
    cases o with
    | some ev =>
      rcases hrest : evaluateAll es w vs st1 with ⟨rest, st2⟩
      show (evaluateAll es w (v :: vs) st).2.cache.lookup k = some val
      simp only [evaluateAll, hge, hrest]
      have h2 := ih st1 k val h1
      rw [hrest] at h2
      exact h2
    | none =>
      show (evaluateAll es w (v :: vs) st).2.cache.lookup k = some val
      simp only [evaluateAll, hge]
      exact ih st1 k val h1

theorem genStep_preserves_lookup (cfg : EngineConfig) (mp : MutationProvider)
    (es : EvaluatorSet) (st : EngineState) (k : Nat) (val : Option FitnessScore)
    (h : st.store.cache.lookup k = some val) :
    (genStep cfg mp es st).store.cache.lookup k = some val := by
  show (evaluateAll es cfg.weights (mutateAll mp cfg.offspring_per_parent
      (select cfg.selection_strategy st.population cfg.parent_count st.rng).1
      (select cfg.selection_strategy st.population cfg.parent_count st.rng).2).1
      st.store).2.cache.lookup k = some val
  exact evaluateAll_preserves_lookup es cfg.weights _ st.store k val h

theorem genStep_iterate_preserves_lookup (cfg : EngineConfig)
    (mp : MutationProvider) (es : EvaluatorSet) (k : Nat)
    (val : Option FitnessScore) :
    ∀ (g : Nat) (s : EngineState), s.store.cache.lookup k = some val →
      ((genStep cfg mp es)^[g] s).store.cache.lookup k = some val := by
  intro g
  induction g with
  | zero => intro s h; exact h
  | succ g ih =>
    intro s h
    rw [Function.iterate_succ_apply]
    exact ih _ (genStep_preserves_lookup cfg mp es s k val h)

/-- C2: within one run the evaluators are invoked at most once per
variant id.  The first `get_or_evaluate` call for an id stores the
`FitnessScore` it computed; the stored entry survives every later store
operation of the run — evaluating any other variant, evaluating a whole
candidate list, and any number of generations of the loop —; and on any
store carrying the entry, a call for a variant with an equal id returns
the identical stored score and leaves the store, and with it the
evaluator call count, unchanged — the evaluators are never re-invoked
for that id. -/
theorem cache_single_evaluation (es : EvaluatorSet) (w : Weights) (st : Store)
    (v1 v2 : CodeVariant) (hid : v2.id = v1.id) (f : FitnessScore)
    (h1 : (get_or_evaluate es w st v1).1 = some { v1 with fitness := some f }) :
    (get_or_evaluate es w st v1).2.cache.lookup v1.id = some (some f) ∧
    (∀ st2 : Store, st2.cache.lookup v1.id = some (some f) →
      (get_or_evaluate es w st2 v2).1 = some { v2 with fitness := some f } ∧
      (get_or_evaluate es w st2 v2).2 = st2 ∧
      (get_or_evaluate es w st2 v2).2.evalCalls = st2.evalCalls) ∧
    (∀ (st2 : Store) (u : CodeVariant) (l : List CodeVariant),
      st2.cache.lookup v1.id = some (some f) →
      (get_or_evaluate es w st2 u).2.cache.lookup v1.id = some (some f) ∧
      (evaluateAll es w l st2).2.cache.lookup v1.id = some (some f)) ∧
    (∀ (cfg : EngineConfig) (mp : MutationProvider) (s : EngineState) (g : Nat),
      s.store.cache.lookup v1.id = some (some f) →
      ((genStep cfg mp es)^[g] s).store.cache.lookup v1.id = some (some f)) := by
  have key : ∀ st2 : Store, st2.cache.lookup v2.id = some (some f) →
      (get_or_evaluate es w st2 v2).1 = some { v2 with fitness := some f } ∧
      (get_or_evaluate es w st2 v2).2 = st2 := by
    intro st2 h2
    unfold get_or_evaluate
    rw [h2]
    exact ⟨rfl, rfl⟩
  have hstore : (get_or_evaluate es w st v1).2.cache.lookup v1.id = some (some f) := by
    cases hc : st.cache.lookup v1.id with
    | none =>
      cases hr : assembleFitness w es v1 with
      | none =>
        have h1x := h1
        simp [get_or_evaluate, hc, hr] at h1x
      | some f0 =>
        have h1x := h1
        simp only [get_or_evaluate, hc, hr, Option.map_some', Option.some.injEq] at h1x
        have hf0 : f0 = f := by
          have := congrArg CodeVariant.fitness h1x
          simpa using this
        subst hf0
        simp [get_or_evaluate, hc, hr, List.lookup]
    | some val =>
      cases val with
      | none =>
        have h1x := h1
        simp [get_or_evaluate, hc] at h1x
      | some f0 =>
        have h1x := h1
        simp only [get_or_evaluate, hc, Option.some.injEq] at h1x
        have hf0 : f0 = f := by
          have := congrArg CodeVariant.fitness h1x
          simpa using this
        subst hf0
        simp [get_or_evaluate, hc]
  refine ⟨hstore, ?_, ?_, ?_⟩
  · intro st2 h2
    have hk := key st2 (by rw [hid]; exact h2)
    exact ⟨hk.1, hk.2, congrArg Store.evalCalls hk.2⟩
  · intro st2 u l h2
    exact ⟨get_or_evaluate_preserves_lookup es w st2 u v1.id (some f) h2,
      evaluateAll_preserves_lookup es w l st2 v1.id (some f) h2⟩
  · intro cfg mp s g h2
    exact genStep_iterate_preserves_lookup cfg mp es v1.id (some f) g s h2

theorem cache_single_evaluation_witness :
    (get_or_evaluate esOne wQuarter
        (get_or_evaluate esOne wQuarter ⟨[], 0⟩ vWitness).2 vWitness).1 =
      some { vWitness with fitness := some (mkFitnessScore wQuarter 1 1 1 1) } ∧
    (get_or_evaluate esOne wQuarter
        (get_or_evaluate esOne wQuarter ⟨[], 0⟩ vWitness).2 vWitness).2 =
      (get_or_evaluate esOne wQuarter ⟨[], 0⟩ vWitness).2 ∧
    (get_or_evaluate esOne wQuarter
        (get_or_evaluate esOne wQuarter ⟨[], 0⟩ vWitness).2 vWitness).2.evalCalls =
      (get_or_evaluate esOne wQuarter ⟨[], 0⟩ vWitness).2.evalCalls :=
  (cache_single_evaluation esOne wQuarter ⟨[], 0⟩ vWitness vWitness rfl
      (mkFitnessScore wQuarter 1 1 1 1) rfl).2.1
    (get_or_evaluate esOne wQuarter ⟨[], 0⟩ vWitness).2
    (cache_single_evaluation esOne wQuarter ⟨[], 0⟩ vWitness vWitness rfl
      (mkFitnessScore wQuarter 1 1 1 1) rfl).1

/-! ## Theorems: evaluator error policy -/

theorem dimScore_not_crashed (r : Except EvaluationError ℚ)
    (h : isCrashed r = false) : dimScore r = some (dimValue r) := by
  cases r with
  | ok q => rfl
  | error e =>
    cases e with
    | Timeout => rfl
    | CrashedOrUnparseable => simp [isCrashed] at h

theorem dimScore_crashed (r : Except EvaluationError ℚ)
    (h : isCrashed r = true) : dimScore r = none := by
  cases r with
  | ok q => simp [isCrashed] at h
  | error e =>
    cases e with
    | Timeout => simp [isCrashed] at h
    | CrashedOrUnparseable => rfl

theorem assembleFitness_eq_none_of_dim_none (w : Weights) (es : EvaluatorSet)
    (v : CodeVariant)
    (h : dimScore (es.performance v) = none ∨ dimScore (es.security v) = none ∨
      dimScore (es.maintainability v) = none ∨
      dimScore (es.test_coverage v) = none) :
    assembleFitness w es v = none := by
  unfold assembleFitness
  rcases h with h | h | h | h
  · rw [h]
  · rw [h]
    cases dimScore (es.performance v) <;> rfl
  · rw [h]
    cases dimScore (es.performance v) <;> cases dimScore (es.security v) <;> rfl
  · rw [h]
    cases dimScore (es.performance v) <;> cases dimScore (es.security v) <;>
      cases dimScore (es.maintainability v) <;> rfl

/-- C5: when no dimension crashed, the variant keeps a `FitnessScore`
whose sub-scores are the evaluator results with every timed-out dimension
recorded as `0`; when any dimension is `CrashedOrUnparseable` the whole
variant is discarded by the store (an uncached id evaluates to `none`, so
it never reaches the population); and in neither case does `optimize`
abort — a validly configured run still returns `Except.ok` under this
evaluator set. -/
theorem evaluation_error_policy (w : Weights) (es : EvaluatorSet) (v : CodeVariant)
    (cfg : EngineConfig) :
    (isCrashed (es.performance v) = false → isCrashed (es.security v) = false →
      isCrashed (es.maintainability v) = false →
      isCrashed (es.test_coverage v) = false →
      assembleFitness w es v = some (mkFitnessScore w
        (dimValue (es.performance v)) (dimValue (es.security v))
        (dimValue (es.maintainability v)) (dimValue (es.test_coverage v))) ∧
      (es.performance v = Except.error EvaluationError.Timeout →
        dimValue (es.performance v) = 0)) ∧
    ((isCrashed (es.performance v) = true ∨ isCrashed (es.security v) = true ∨
        isCrashed (es.maintainability v) = true ∨
        isCrashed (es.test_coverage v) = true) →
      assembleFitness w es v = none ∧
      ∀ st : Store, st.cache.lookup v.id = none →
        (get_or_evaluate es w st v).1 = none) ∧
    (weightSum cfg.weights = 1 → cfg.population_size ≠ 0 →
      ∀ cb mp seed, ∃ r, optimize cb cfg mp es seed = Except.ok r) := by
  refine ⟨?_, ?_, ?_⟩
  · intro hp hs hm hc
    constructor
    · unfold assembleFitness
      rw [dimScore_not_crashed _ hp, dimScore_not_crashed _ hs,
        dimScore_not_crashed _ hm, dimScore_not_crashed _ hc]
    · intro ht
      rw [ht]
      rfl
  · intro hcr
    have hnone : assembleFitness w es v = none := by
      apply assembleFitness_eq_none_of_dim_none
      rcases hcr with h | h | h | h
      · exact Or.inl (dimScore_crashed _ h)
      · exact Or.inr (Or.inl (dimScore_crashed _ h))
      · exact Or.inr (Or.inr (Or.inl (dimScore_crashed _ h)))
      · exact Or.inr (Or.inr (Or.inr (dimScore_crashed _ h)))
    refine ⟨hnone, ?_⟩
    intro st hl
    simp [get_or_evaluate, hl, hnone]
  · intro hw hp cb mp seed
    exact optimize_always_ok cfg hw hp cb mp es seed
theorem evaluation_error_policy_witness :
    assembleFitness wQuarter esTimeoutPerf vWitness =
      some (mkFitnessScore wQuarter
        (dimValue (esTimeoutPerf.performance vWitness))
        (dimValue (esTimeoutPerf.security vWitness))
        (dimValue (esTimeoutPerf.maintainability vWitness))
        (dimValue (esTimeoutPerf.test_coverage vWitness))) ∧
    (esTimeoutPerf.performance vWitness = Except.error EvaluationError.Timeout →
      dimValue (esTimeoutPerf.performance vWitness) = 0) :=
  (evaluation_error_policy wQuarter esTimeoutPerf vWitness cfgOk).1 rfl rfl rfl rfl

/-! ## Theorems: determinism -/

/-- C6: `mutate` is a pure function of `(variant, kind, rng_seed)` — equal
seeds give equal mutations, with no other state to consult — and hence two
`optimize` runs with identical codebase, configuration, collaborators and
seed stream return the same `best_variant.id`. -/
theorem engine_determinism (mp : MutationProvider) (cb : Codebase)
    (cfg : EngineConfig) (es : EvaluatorSet) (seed : Nat) :
    (∀ v kind s1 s2, s1 = s2 → mutate mp v kind s1 = mutate mp v kind s2) ∧
    (∀ r1 r2, optimize cb cfg mp es seed = Except.ok r1 →
      optimize cb cfg mp es seed = Except.ok r2 →
      r1.best_variant.id = r2.best_variant.id) := by
  constructor
  · intro v kind s1 s2 h
    rw [h]
  · intro r1 r2 hr1 hr2
    rw [hr1, Except.ok.injEq] at hr2
    rw [hr2]

theorem engine_determinism_witness :
    mutate mpId vWitness MutationKind.refactorSimplify 7 =
      mutate mpId vWitness MutationKind.refactorSimplify 7 :=
  (engine_determinism mpId [] cfgOk esOne 0).1 vWitness
    MutationKind.refactorSimplify 7 7 rfl

/-! ## Theorems: champion monotonicity -/

theorem updateChampion_le (l : List CodeVariant) :
    ∀ c, totalOf c ≤ totalOf (updateChampion c l) := by
  induction l with
  | nil => intro c; exact le_refl _
  | cons v vs ih =>
    intro c
    show totalOf c ≤ totalOf (updateChampion (if totalOf c < totalOf v then v else c) vs)
    by_cases h : totalOf c < totalOf v
    · rw [if_pos h]
      exact le_trans h.le (ih v)
    · rw [if_neg h]
      exact ih c

theorem genStep_champion_mono (cfg : EngineConfig) (mp : MutationProvider)
    (es : EvaluatorSet) (st : EngineState) :
    totalOf st.champion ≤ totalOf (genStep cfg mp es st).champion := by
  unfold genStep
  exact updateChampion_le _ st.champion

theorem loop_best_no_regress (cfg : EngineConfig) (mp : MutationProvider)
    (es : EvaluatorSet) :
    ∀ fuel st, totalOf st.champion ≤
      totalOf (loop cfg mp es fuel st).best_variant := by
  intro fuel
  induction fuel with
  | zero => intro st; exact le_refl _
  | succ fuel ih =>
    intro st
    unfold loop
    by_cases h1 : cfg.max_generations ≤ st.generations_run
    · rw [if_pos h1]; exact le_refl _
    · rw [if_neg h1]
      by_cases h2 : cfg.convergence_threshold ≤ totalOf st.champion
      · rw [if_pos h2]; exact le_refl _
      · rw [if_neg h2]
        by_cases h3 : cfg.stagnation_limit ≤ st.stagnation
        · rw [if_pos h3]; exact le_refl _
        · rw [if_neg h3]
          exact le_trans (genStep_champion_mono cfg mp es st) (ih _)

/-- C3: within one run, the champion's `fitness.total` never decreases
from one generation to the next — for every configuration, and so under
every selection strategy, the state after `g + 1` generations carries a
champion at least as fit as the state after `g`; moreover the
`best_variant` the loop finally returns is at least as fit as the
champion of any state the loop passes through. -/
theorem champion_monotone (cfg : EngineConfig) (mp : MutationProvider)
    (es : EvaluatorSet) (cb : Codebase) (seed g : Nat) :
    totalOf (stateAt cfg mp es cb seed g).champion ≤
      totalOf (stateAt cfg mp es cb seed (g + 1)).champion ∧
    ∀ fuel st, totalOf st.champion ≤
      totalOf (loop cfg mp es fuel st).best_variant :=
  ⟨genStep_champion_mono cfg mp es (stateAt cfg mp es cb seed g),
   loop_best_no_regress cfg mp es⟩

/-! ## Membership lemmas for the selection pipeline -/

theorem mem_insertRanked (a v : CodeVariant) :
    ∀ (l : List CodeVariant), a ∈ insertRanked v l → a = v ∨ a ∈ l := by
  intro l
  induction l with
  | nil => intro h; simpa [insertRanked] using h
  | cons w ws ih =>
    intro h
    simp only [insertRanked] at h
    by_cases hr : rankBefore v w = true
    · rw [if_pos hr] at h
      rcases List.mem_cons.mp h with h1 | h1
      · exact Or.inl h1
      · exact Or.inr h1
    · rw [if_neg hr] at h
      rcases List.mem_cons.mp h with h1 | h1
      · exact Or.inr (List.mem_cons.mpr (Or.inl h1))
      · rcases ih h1 with h2 | h2
        · exact Or.inl h2
        · exact Or.inr (List.mem_cons.mpr (Or.inr h2))

theorem mem_rankSort (a : CodeVariant) :
    ∀ (l : List CodeVariant), a ∈ rankSort l → a ∈ l := by
  intro l
  induction l with
  | nil => intro h; simp [rankSort] at h
  | cons v vs ih =>
    intro h
    simp only [rankSort] at h
    rcases mem_insertRanked a v _ h with h1 | h1
    · exact List.mem_cons.mpr (Or.inl h1)
    · exact List.mem_cons.mpr (Or.inr (ih h1))

theorem mem_dedupeById (a : CodeVariant) :
    ∀ (l : List CodeVariant), a ∈ dedupeById l → a ∈ l := by
  intro l
  induction l with
  | nil => intro h; simp [dedupeById] at h
  | cons v vs ih =>
    intro h
    simp only [dedupeById] at h
    rcases List.mem_cons.mp h with h1 | h1
    · exact List.mem_cons.mpr (Or.inl h1)
    · exact List.mem_cons.mpr (Or.inr (ih (List.mem_of_mem_filter h1)))

theorem tournamentOnce_mem (pop : List CodeVariant) :
    ∀ (k rng : Nat) (v : CodeVariant),
      (tournamentOnce pop k rng).1 = some v → v ∈ pop := by
  intro k
  induction k with
  | zero => intro rng v h; simp [tournamentOnce] at h
  | succ k ih =>
    intro rng v h
    rcases h2 : tournamentOnce pop k (lcg rng) with ⟨o, r2⟩
    cases o with
    | none =>
      simp only [tournamentOnce, h2] at h
      exact List.get?_mem h
    | some b =>
      have hb : b ∈ pop := ih (lcg rng) b (by rw [h2])
      cases hc : pop.get? (if pop.length = 0 then 0 else lcg rng % pop.length) with
      | none =>
        simp only [tournamentOnce, h2, hc, Option.some.injEq] at h
        subst h
        exact hb
      | some c =>
        simp only [tournamentOnce, h2, hc, Option.some.injEq] at h
        by_cases hbc : totalOf b < totalOf c
        · rw [if_pos hbc] at h
          subst h
          exact List.get?_mem hc
        · rw [if_neg hbc] at h
          subst h
          exact hb

theorem tournamentSelect_mem (pop : List CodeVariant) (k : Nat) :
    ∀ (c rng : Nat) (v : CodeVariant),
      v ∈ (tournamentSelect pop k c rng).1 → v ∈ pop := by
  intro c
  induction c with
  | zero => intro rng v h; simp [tournamentSelect] at h
  | succ c ih =>
    intro rng v h
    rcases h1 : tournamentOnce pop k rng with ⟨pick, r1⟩
    rcases h2 : tournamentSelect pop k c r1 with ⟨rest, r2⟩
    cases pick with
    | none =>
      simp only [tournamentSelect, h1, h2] at h
      exact ih r1 v (by rw [h2]; exact h)
    | some p =>
      simp only [tournamentSelect, h1, h2] at h
      rcases List.mem_cons.mp h with hh | hh
      · subst hh
        exact tournamentOnce_mem pop k rng v (by rw [h1])
      · exact ih r1 v (by rw [h2]; exact hh)

theorem pickByWeight_mem :
    ∀ (l : List CodeVariant) (t : ℚ) (c : CodeVariant) (rest : List CodeVariant),
      pickByWeight l t = some (c, rest) → c ∈ l ∧ ∀ x ∈ rest, x ∈ l := by
  intro l
  induction l with
  | nil => intro t c rest h; simp [pickByWeight] at h
  | cons v vs ih =>
    intro t c rest h
    simp only [pickByWeight] at h
    by_cases hw : t < shiftedWeight v
    · rw [if_pos hw] at h
      simp only [Option.some.injEq, Prod.mk.injEq] at h
      obtain ⟨hc, hr⟩ := h
      subst hc
      subst hr
      exact ⟨List.mem_cons_self v vs, fun x hx => List.mem_cons_of_mem v hx⟩
    · rw [if_neg hw] at h
      cases hp : pickByWeight vs (t - shiftedWeight v) with
      | none => rw [hp] at h; cases h
      | some p =>
        obtain ⟨c0, rest0⟩ := p
        rw [hp] at h
        simp only [Option.some.injEq, Prod.mk.injEq] at h
        obtain ⟨hc, hr⟩ := h
        obtain ⟨hm, hsub⟩ := ih (t - shiftedWeight v) c0 rest0 hp
        refine ⟨hc ▸ List.mem_cons_of_mem v hm, ?_⟩
        intro x hx
        rw [← hr] at hx
        rcases List.mem_cons.mp hx with h1 | h1
        · exact List.mem_cons.mpr (Or.inl h1)
        · exact List.mem_cons_of_mem v (hsub x h1)

theorem rouletteOnce_mem (pop : List CodeVariant) (rng : Nat) (v : CodeVariant)
    (rest : List CodeVariant) (h : (rouletteOnce pop rng).1 = some (v, rest)) :
    v ∈ pop ∧ ∀ x ∈ rest, x ∈ pop := by
  cases hp : pickByWeight pop (rouletteTarget pop (lcg rng)) with
  | some p =>
    obtain ⟨c0, rest0⟩ := p
    simp only [rouletteOnce, hp, Option.some.injEq, Prod.mk.injEq] at h
    obtain ⟨hc, hr⟩ := h
    subst hc
    subst hr
    exact pickByWeight_mem pop _ _ _ hp
  | none =>
    cases pop with
    | nil => simp [rouletteOnce, hp] at h
    | cons p ps =>
      simp only [rouletteOnce, hp, Option.some.injEq, Prod.mk.injEq] at h
      obtain ⟨hc, hr⟩ := h
      subst hc
      subst hr
      exact ⟨List.mem_cons_self _ _, fun x hx => List.mem_cons_of_mem _ hx⟩

theorem rouletteSelect_mem :
    ∀ (c : Nat) (pop : List CodeVariant) (rng : Nat) (v : CodeVariant),
      v ∈ (rouletteSelect pop c rng).1 → v ∈ pop := by
  intro c
  induction c with
  | zero => intro pop rng v h; simp [rouletteSelect] at h
  | succ c ih =>
    intro pop rng v h
    rcases ho : rouletteOnce pop rng with ⟨o, r1⟩
    cases o with
    | none =>
      simp only [rouletteSelect, ho] at h
      simp at h
    | some p =>
      obtain ⟨x, rest⟩ := p
      have hmem := rouletteOnce_mem pop rng x rest (by rw [ho])
      rcases hr : rouletteSelect rest c r1 with ⟨more, r2⟩
      simp only [rouletteSelect, ho, hr] at h
      rcases List.mem_cons.mp h with h1 | h1
      · subst h1
        exact hmem.1
      · exact hmem.2 v (ih rest r1 v (by rw [hr]; exact h1))

theorem select_mem (strat : SelectionStrategy) (pop : List CodeVariant)
    (count rng : Nat) (v : CodeVariant)
    (h : v ∈ (select strat pop count rng).1) : v ∈ pop := by
  cases strat with
  | elitism =>
    simp only [select] at h
    exact mem_rankSort v pop (List.take_subset _ _ h)
  | tournament k =>
    exact tournamentSelect_mem pop k count rng v (by simpa [select] using h)
  | roulette =>
    exact rouletteSelect_mem count pop rng v (by simpa [select] using h)

/-! ## Syntactic safety of the mutation pipeline -/

theorem mutate_error_of_not_parses (mp : MutationProvider) (v : CodeVariant)
    (kind : MutationKind) (s : Nat)
    (h : mp.parses (mp.transform v.codebase kind s) = false) :
    mutate mp v kind s = Except.error MutationError.SyntaxInvalid := by
  simp [mutate, h]

theorem mutate_ok_parses (mp : MutationProvider) (v : CodeVariant)
    (kind : MutationKind) (s : Nat) (child : CodeVariant)
    (h : mutate mp v kind s = Except.ok child) :
    mp.parses child.codebase = true := by
  simp only [mutate] at h
  split at h
  · rename_i hp
    rw [Except.ok.injEq] at h
    rw [← h]
    exact hp
  · cases h

theorem mutate_ok_fitness_none (mp : MutationProvider) (v : CodeVariant)
    (kind : MutationKind) (s : Nat) (child : CodeVariant)
    (h : mutate mp v kind s = Except.ok child) : child.fitness = none := by
  simp only [mutate] at h
  split at h
  · rw [Except.ok.injEq] at h
    rw [← h]
  · cases h

theorem mutateChild_parses (mp : MutationProvider) (parent : CodeVariant)
    (rng : Nat) (h : mp.parses parent.codebase = true) :
    mp.parses (mutateChild mp parent rng).1.codebase = true := by
  simp only [mutateChild]
  cases hm : mutate mp parent (mutationKindOfNat (lcg rng)) (lcg (lcg rng)) with
  | error e => exact h
  | ok child => exact mutate_ok_parses mp parent _ _ child hm

theorem mutateOffspring_parses (mp : MutationProvider) (parent : CodeVariant)
    (h : mp.parses parent.codebase = true) :
    ∀ (n rng : Nat) (c : CodeVariant), c ∈ (mutateOffspring mp parent n rng).1 →
      mp.parses c.codebase = true := by
  intro n
  induction n with
  | zero => intro rng c hc; simp [mutateOffspring] at hc
  | succ n ih =>
    intro rng c hc
    rcases hmc : mutateChild mp parent rng with ⟨child, r1⟩
    rcases hrest : mutateOffspring mp parent n r1 with ⟨rest, r2⟩
    simp only [mutateOffspring, hmc, hrest] at hc
    rcases List.mem_cons.mp hc with h1 | h1
    · subst h1
      have hp := mutateChild_parses mp parent rng h
      rwa [hmc] at hp
    · exact ih r1 c (by rw [hrest]; exact h1)

theorem mutateAll_parses (mp : MutationProvider) (k : Nat) :
    ∀ (ps : List CodeVariant) (rng : Nat),
      (∀ p ∈ ps, mp.parses p.codebase = true) →
      ∀ c ∈ (mutateAll mp k ps rng).1, mp.parses c.codebase = true := by
  intro ps
  induction ps with
  | nil => intro rng _ c hc; simp [mutateAll] at hc
  | cons p ps ih =>
    intro rng hps c hc
    rcases hcs : mutateOffspring mp p k rng with ⟨cs, r1⟩
    rcases hrest : mutateAll mp k ps r1 with ⟨rest, r2⟩
    simp only [mutateAll, hcs, hrest] at hc
    rcases List.mem_append.mp hc with h1 | h1
    · exact mutateOffspring_parses mp p (hps p (List.mem_cons_self p ps)) k rng c
        (by rw [hcs]; exact h1)
    · exact ih r1 (fun q hq => hps q (List.mem_cons_of_mem p hq)) c
        (by rw [hrest]; exact h1)

theorem get_or_evaluate_codebase (es : EvaluatorSet) (w : Weights) (st : Store)
    (v u : CodeVariant) (h : (get_or_evaluate es w st v).1 = some u) :
    u.codebase = v.codebase := by
  cases hc : st.cache.lookup v.id with
  | none =>
    cases hr : assembleFitness w es v with
    | none => simp [get_or_evaluate, hc, hr] at h
    | some f0 =>
      simp only [get_or_evaluate, hc, hr, Option.map_some', Option.some.injEq] at h
      rw [← h]
  | some val =>
    cases val with
    | none => simp [get_or_evaluate, hc] at h
    | some f0 =>
      simp only [get_or_evaluate, hc, Option.some.injEq] at h
      rw [← h]

theorem evaluateAll_parses (es : EvaluatorSet) (w : Weights) (mp : MutationProvider) :
    ∀ (l : List CodeVariant) (st : Store),
      (∀ x ∈ l, mp.parses x.codebase = true) →
      ∀ u ∈ (evaluateAll es w l st).1, mp.parses u.codebase = true := by
  intro l
  induction l with
  | nil => intro st _ u hu; simp [evaluateAll] at hu
  | cons v vs ih =>
    intro st hl u hu
    rcases hg : get_or_evaluate es w st v with ⟨o, st1⟩
    cases o with
    | some ev =>
      rcases hrest : evaluateAll es w vs st1 with ⟨rest, st2⟩
      simp only [evaluateAll, hg, hrest] at hu
      rcases List.mem_cons.mp hu with h1 | h1
      · subst h1
        have hcb : u.codebase = v.codebase :=
          get_or_evaluate_codebase es w st v u (by rw [hg])
        rw [hcb]
        exact hl v (List.mem_cons_self v vs)
      · exact ih st1 (fun x hx => hl x (List.mem_cons_of_mem v hx)) u
          (by rw [hrest]; exact h1)
    | none =>
      simp only [evaluateAll, hg] at hu
      exact ih st1 (fun x hx => hl x (List.mem_cons_of_mem v hx)) u hu

theorem genStep_parses (cfg : EngineConfig) (mp : MutationProvider)
    (es : EvaluatorSet) (st : EngineState)
    (h : ∀ v ∈ st.population, mp.parses v.codebase = true) :
    ∀ v ∈ (genStep cfg mp es st).population, mp.parses v.codebase = true := by
  intro v hv
  simp only [genStep] at hv
  have h1 := mem_rankSort v _ (List.take_subset _ _ hv)
  have h2 := mem_dedupeById v _ h1
  rcases List.mem_append.mp h2 with h3 | h3
  · exact h v (select_mem _ _ _ _ v h3)
  · exact evaluateAll_parses es cfg.weights mp _ st.store
      (mutateAll_parses mp cfg.offspring_per_parent _ _
        (fun p hp => h p (select_mem _ _ _ _ p hp))) v h3

theorem initState_parses (cfg : EngineConfig) (mp : MutationProvider)
    (es : EvaluatorSet) (cb : Codebase) (seed : Nat)
    (hseed : mp.parses cb = true) :
    ∀ v ∈ (initState cfg mp es cb seed).population, mp.parses v.codebase = true := by
  intro v hv
  simp only [initState] at hv
  have h1 := mem_rankSort v _ (List.take_subset _ _ hv)
  have h2 := mem_dedupeById v _ h1
  have hmut : ∀ c ∈ (mutateOffspring mp (seedVariant cb)
      (cfg.population_size - 1) seed).1, mp.parses c.codebase = true :=
    fun c hc => mutateOffspring_parses mp (seedVariant cb) hseed _ seed c hc
  have hev : ∀ u ∈ (evaluateAll es cfg.weights
      (mutateOffspring mp (seedVariant cb) (cfg.population_size - 1) seed).1
      (get_or_evaluate es cfg.weights ⟨[], 0⟩ (seedVariant cb)).2).1,
      mp.parses u.codebase = true :=
    evaluateAll_parses es cfg.weights mp _ _ hmut
  cases hse : (get_or_evaluate es cfg.weights ⟨[], 0⟩ (seedVariant cb)).1 with
  | some v0 =>
    rw [hse] at h2
    rcases List.mem_cons.mp h2 with h3 | h3
    · subst h3
      have := get_or_evaluate_codebase es cfg.weights ⟨[], 0⟩ (seedVariant cb) v hse
      rw [this]
      exact hseed
    · exact hev v h3
  | none =>
    rw [hse] at h2
    exact hev v h2

theorem stateAt_parses (cfg : EngineConfig) (mp : MutationProvider)
    (es : EvaluatorSet) (cb : Codebase) (seed : Nat)
    (hseed : mp.parses cb = true) :
    ∀ g, ∀ v ∈ (stateAt cfg mp es cb seed g).population,
      mp.parses v.codebase = true := by
  intro g
  induction g with
  | zero => exact initState_parses cfg mp es cb seed hseed
  | succ g ih => exact genStep_parses cfg mp es _ ih

/-- C4: when the seed codebase parses, every variant that ever enters a
population of the run re-parses successfully — `mutate` re-parses the
codebase it emits and rejects the mutation with
`MutationError.SyntaxInvalid` whenever that re-parse fails, a successful
`mutate` only ever emits a parsing codebase, the per-child fallback keeps
the unmutated parent, and so no syntactically invalid variant is ever
selectable. -/
theorem population_syntactic_safety (cfg : EngineConfig) (mp : MutationProvider)
    (es : EvaluatorSet) (cb : Codebase) (seed g : Nat)
    (hseed : mp.parses cb = true) :
    (∀ v kind s, mp.parses (mp.transform v.codebase kind s) = false →
      mutate mp v kind s = Except.error MutationError.SyntaxInvalid) ∧
    (∀ v kind s child, mutate mp v kind s = Except.ok child →
      mp.parses child.codebase = true) ∧
    (∀ parent rng, mp.parses parent.codebase = true →
      mp.parses (mutateChild mp parent rng).1.codebase = true) ∧
    ∀ v ∈ (stateAt cfg mp es cb seed g).population, mp.parses v.codebase = true :=
  ⟨fun v kind s h => mutate_error_of_not_parses mp v kind s h,
   fun v kind s child h => mutate_ok_parses mp v kind s child h,
   fun parent rng h => mutateChild_parses mp parent rng h,
   stateAt_parses cfg mp es cb seed hseed g⟩
theorem population_syntactic_safety_witness :
    mutate mpSeedOnly vWitness MutationKind.refactorSimplify 5 =
      Except.error MutationError.SyntaxInvalid :=
  (population_syntactic_safety cfgOk mpSeedOnly esOne [] 0 0 rfl).1 vWitness
    MutationKind.refactorSimplify 5 rfl

/-! ## Fitness-total consistency -/
theorem lookup_entry_mem (k : Nat) :
    ∀ (l : List (Nat × Option FitnessScore)) (val : Option FitnessScore),
      l.lookup k = some val → (k, val) ∈ l := by
  intro l
  induction l with
  | nil => intro val h; simp [List.lookup] at h
  | cons p rest ih =>
    intro val h
    obtain ⟨k1, b⟩ := p
    by_cases hk : k = k1
    · subst hk
      simp [List.lookup] at h
      subst h
      exact List.mem_cons_self _ _
    · have hbeq : (k == k1) = false := by simp [hk]
      simp only [List.lookup, hbeq] at h
      exact List.mem_cons_of_mem _ (ih val h)

theorem mkFitnessScore_consistent (w : Weights) (p s m c : ℚ) :
    consistentTotal w (mkFitnessScore w p s m c) := rfl

theorem assembleFitness_consistent (w : Weights) (es : EvaluatorSet)
    (v : CodeVariant) (f : FitnessScore) (h : assembleFitness w es v = some f) :
    consistentTotal w f := by
  unfold assembleFitness at h
  split at h
  · rw [Option.some.injEq] at h
    rw [← h]
    rfl
  · cases h

theorem get_or_evaluate_consistent (es : EvaluatorSet) (w : Weights) (st : Store)
    (v : CodeVariant) (hst : storeConsistent w st) :
    storeConsistent w (get_or_evaluate es w st v).2 ∧
    ∀ u, (get_or_evaluate es w st v).1 = some u → fitnessConsistent w u := by
  cases hc : st.cache.lookup v.id with
  | none =>
    cases hr : assembleFitness w es v with
    | none =>
      constructor
      · intro p hp f hf
        simp only [get_or_evaluate, hc, hr] at hp
        rcases List.mem_cons.mp hp with h1 | h1
        · rw [h1] at hf
          simp at hf
        · exact hst p h1 f hf
      · intro u hu
        simp [get_or_evaluate, hc, hr] at hu
    | some f0 =>
      have hf0 : consistentTotal w f0 := assembleFitness_consistent w es v f0 hr
      constructor
      · intro p hp f hf
        simp only [get_or_evaluate, hc, hr] at hp
        rcases List.mem_cons.mp hp with h1 | h1
        · rw [h1] at hf
          simp only [Option.some.injEq] at hf
          rw [← hf]
          exact hf0
        · exact hst p h1 f hf
      · intro u hu
        simp only [get_or_evaluate, hc, hr, Option.map_some',
          Option.some.injEq] at hu
        intro f hf
        rw [← hu] at hf
        simp only [Option.some.injEq] at hf
        rw [← hf]
        exact hf0
  | some val =>
    cases val with
    | none =>
      constructor
      · intro p hp f hf
        simp only [get_or_evaluate, hc] at hp
        exact hst p hp f hf
      · intro u hu
        simp [get_or_evaluate, hc] at hu
    | some f0 =>
      have hf0 : consistentTotal w f0 :=
        hst (v.id, some f0) (lookup_entry_mem v.id st.cache (some f0) hc) f0 rfl
      constructor
      · intro p hp f hf
        simp only [get_or_evaluate, hc] at hp
        exact hst p hp f hf
      · intro u hu
        simp only [get_or_evaluate, hc, Option.some.injEq] at hu
        intro f hf
        rw [← hu] at hf
        simp only [Option.some.injEq] at hf
        rw [← hf]
        exact hf0

theorem evaluateAll_consistent (es : EvaluatorSet) (w : Weights) :
    ∀ (l : List CodeVariant) (st : Store), storeConsistent w st →
      storeConsistent w (evaluateAll es w l st).2 ∧
      ∀ u ∈ (evaluateAll es w l st).1, fitnessConsistent w u := by
  intro l
  induction l with
  | nil =>
    intro st hst
    exact ⟨hst, by simp [evaluateAll]⟩
  | cons v vs ih =>
    intro st hst
    have hg := get_or_evaluate_consistent es w st v hst
    rcases hge : get_or_evaluate es w st v with ⟨o, st1⟩
    have hst1 : storeConsistent w st1 := by
      have h1 := hg.1
      rw [hge] at h1
      exact h1
    cases o with
    | some ev =>
      have hev : fitnessConsistent w ev := hg.2 ev (by rw [hge])
      have hrec := ih st1 hst1
      rcases hrest : evaluateAll es w vs st1 with ⟨rest, st2⟩
      constructor
      · have h2 := hrec.1
        rw [hrest] at h2
        show storeConsistent w (evaluateAll es w (v :: vs) st).2
        simp only [evaluateAll, hge, hrest]
        exact h2
      · intro u hu
        simp only [evaluateAll, hge, hrest] at hu
        rcases List.mem_cons.mp hu with h1 | h1
        · subst h1
          exact hev
        · have h2 := hrec.2 u
          rw [hrest] at h2
          exact h2 h1
    | none =>
      have hrec := ih st1 hst1
      constructor
      · show storeConsistent w (evaluateAll es w (v :: vs) st).2
        simp only [evaluateAll, hge]
        exact hrec.1
      · intro u hu
        simp only [evaluateAll, hge] at hu
        exact hrec.2 u hu

theorem updateChampion_cases :
    ∀ (l : List CodeVariant) (c : CodeVariant),
      updateChampion c l = c ∨ updateChampion c l ∈ l := by
  intro l
  induction l with
  | nil => intro c; exact Or.inl rfl
  | cons v vs ih =>
    intro c
    rcases ih (if totalOf c < totalOf v then v else c) with h | h
    · by_cases hlt : totalOf c < totalOf v
      · refine Or.inr (List.mem_cons.mpr (Or.inl ?_))
        show updateChampion (if totalOf c < totalOf v then v else c) vs = v
        rw [if_pos hlt] at h ⊢
        exact h
      · refine Or.inl ?_
        show updateChampion (if totalOf c < totalOf v then v else c) vs = c
        rw [if_neg hlt] at h ⊢
        exact h
    · refine Or.inr (List.mem_cons.mpr (Or.inr ?_))
      show updateChampion (if totalOf c < totalOf v then v else c) vs ∈ vs
      exact h

theorem updateChampion_consistent (w : Weights) (l : List CodeVariant)
    (c : CodeVariant) (hc : fitnessConsistent w c)
    (hl : ∀ v ∈ l, fitnessConsistent w v) :
    fitnessConsistent w (updateChampion c l) := by
  rcases updateChampion_cases l c with h | h
  · rw [h]
    exact hc
  · exact hl _ h

theorem genStep_consistent (cfg : EngineConfig) (mp : MutationProvider)
    (es : EvaluatorSet) (st : EngineState)
    (hstore : storeConsistent cfg.weights st.store)
    (hchamp : fitnessConsistent cfg.weights st.champion)
    (hpop : ∀ v ∈ st.population, fitnessConsistent cfg.weights v) :
    storeConsistent cfg.weights (genStep cfg mp es st).store ∧
    fitnessConsistent cfg.weights (genStep cfg mp es st).champion ∧
    ∀ v ∈ (genStep cfg mp es st).population, fitnessConsistent cfg.weights v := by
  have hev := evaluateAll_consistent es cfg.weights
    (mutateAll mp cfg.offspring_per_parent
      (select cfg.selection_strategy st.population cfg.parent_count st.rng).1
      (select cfg.selection_strategy st.population cfg.parent_count st.rng).2).1
    st.store hstore
  refine ⟨hev.1, ?_, ?_⟩
  · exact updateChampion_consistent cfg.weights _ _ hchamp hev.2
  · intro v hv
    simp only [genStep] at hv
    have h1 := mem_rankSort v _ (List.take_subset _ _ hv)
    have h2 := mem_dedupeById v _ h1
    rcases List.mem_append.mp h2 with h3 | h3
    · exact hpop v (select_mem _ _ _ _ v h3)
    · exact hev.2 v h3

theorem initState_consistent (cfg : EngineConfig) (mp : MutationProvider)
    (es : EvaluatorSet) (cb : Codebase) (seed : Nat) :
    storeConsistent cfg.weights (initState cfg mp es cb seed).store ∧
    fitnessConsistent cfg.weights (initState cfg mp es cb seed).champion ∧
    ∀ v ∈ (initState cfg mp es cb seed).population,
      fitnessConsistent cfg.weights v := by
  have h0 : storeConsistent cfg.weights (⟨[], 0⟩ : Store) := by
    intro p hp f hf
    simp at hp
  have hse := get_or_evaluate_consistent es cfg.weights ⟨[], 0⟩ (seedVariant cb) h0
  have hev := evaluateAll_consistent es cfg.weights
    (mutateOffspring mp (seedVariant cb) (cfg.population_size - 1) seed).1
    (get_or_evaluate es cfg.weights ⟨[], 0⟩ (seedVariant cb)).2 hse.1
  have hchamp0 : fitnessConsistent cfg.weights
      (match (get_or_evaluate es cfg.weights ⟨[], 0⟩ (seedVariant cb)).1 with
       | some v => v
       | none => { seedVariant cb with
            fitness := some (mkFitnessScore cfg.weights 0 0 0 0) }) := by
    cases hse1 : (get_or_evaluate es cfg.weights ⟨[], 0⟩ (seedVariant cb)).1 with
    | some v0 => exact hse.2 v0 hse1
    | none =>
      show fitnessConsistent cfg.weights
        { seedVariant cb with fitness := some (mkFitnessScore cfg.weights 0 0 0 0) }
      intro f hf
      simp only [Option.some.injEq] at hf
      rw [← hf]
      rfl
  refine ⟨hev.1, ?_, ?_⟩
  · exact updateChampion_consistent cfg.weights _ _ hchamp0 hev.2
  · intro v hv
    simp only [initState] at hv
    have h1 := mem_rankSort v _ (List.take_subset _ _ hv)
    have h2 := mem_dedupeById v _ h1
    cases hse1 : (get_or_evaluate es cfg.weights ⟨[], 0⟩ (seedVariant cb)).1 with
    | some v0 =>
      rw [hse1] at h2
      rcases List.mem_cons.mp h2 with h3 | h3
      · subst h3
        exact hse.2 v hse1
      · exact hev.2 v h3
    | none =>
      rw [hse1] at h2
      exact hev.2 v h2

theorem stateAt_consistent (cfg : EngineConfig) (mp : MutationProvider)
    (es : EvaluatorSet) (cb : Codebase) (seed : Nat) :
    ∀ g, storeConsistent cfg.weights (stateAt cfg mp es cb seed g).store ∧
      fitnessConsistent cfg.weights (stateAt cfg mp es cb seed g).champion ∧
      ∀ v ∈ (stateAt cfg mp es cb seed g).population,
        fitnessConsistent cfg.weights v := by
  intro g
  induction g with
  | zero => exact initState_consistent cfg mp es cb seed
  | succ g ih => exact genStep_consistent cfg mp es _ ih.1 ih.2.1 ih.2.2

theorem loop_consistent (cfg : EngineConfig) (mp : MutationProvider)
    (es : EvaluatorSet) :
    ∀ fuel st, storeConsistent cfg.weights st.store →
      fitnessConsistent cfg.weights st.champion →
      (∀ v ∈ st.population, fitnessConsistent cfg.weights v) →
      fitnessConsistent cfg.weights (loop cfg mp es fuel st).best_variant := by
  intro fuel
  induction fuel with
  | zero => intro st h1 h2 h3; exact h2
  | succ fuel ih =>
    intro st h1 h2 h3
    unfold loop
    by_cases c1 : cfg.max_generations ≤ st.generations_run
    · rw [if_pos c1]
      exact h2
    · rw [if_neg c1]
      by_cases c2 : cfg.convergence_threshold ≤ totalOf st.champion
      · rw [if_pos c2]
        exact h2
      · rw [if_neg c2]
        by_cases c3 : cfg.stagnation_limit ≤ st.stagnation
        · rw [if_pos c3]
          exact h2
        · rw [if_neg c3]
          have hg := genStep_consistent cfg mp es st h1 h2 h3
          exact ih _ hg.1 hg.2.1 hg.2.2

/-- C7: `total` is the weighted sum of the four sub-scores for every
`FitnessScore` the Engine constructs — the smart constructor computes it,
every score held by the champion, by a population member or memoized in
the store after any number of generations is consistent, and the
`best_variant` of a successful `optimize` run carries a consistent
score. -/
theorem fitness_total_invariant (cfg : EngineConfig) (mp : MutationProvider)
    (es : EvaluatorSet) (cb : Codebase) (seed g : Nat) :
    (∀ p s m c, (mkFitnessScore cfg.weights p s m c).total =
      cfg.weights.performance * p + cfg.weights.security * s +
      cfg.weights.maintainability * m + cfg.weights.test_coverage * c) ∧
    (∀ f, (stateAt cfg mp es cb seed g).champion.fitness = some f →
      consistentTotal cfg.weights f) ∧
    (∀ v ∈ (stateAt cfg mp es cb seed g).population, ∀ f, v.fitness = some f →
      consistentTotal cfg.weights f) ∧
    (∀ p ∈ (stateAt cfg mp es cb seed g).store.cache, ∀ f, p.2 = some f →
      consistentTotal cfg.weights f) ∧
    (∀ r f, optimize cb cfg mp es seed = Except.ok r →
      r.best_variant.fitness = some f → consistentTotal cfg.weights f) := by
  have hst := stateAt_consistent cfg mp es cb seed g
  refine ⟨fun p s m c => rfl, hst.2.1, hst.2.2, hst.1, ?_⟩
  intro r f hr hf
  have hini := initState_consistent cfg mp es cb seed
  cases hv : validateConfig cfg with
  | error e => simp [optimize, hv] at hr
  | ok u =>
    simp only [optimize, hv, Except.ok.injEq] at hr
    rw [← hr] at hf
    exact loop_consistent cfg mp es _ _ hini.1 hini.2.1 hini.2.2 f hf

theorem fitness_total_invariant_witness :
    (mkFitnessScore cfgOk.weights 1 0 0 1).total =
      cfgOk.weights.performance * 1 + cfgOk.weights.security * 0 +
      cfgOk.weights.maintainability * 0 + cfgOk.weights.test_coverage * 1 :=
  (fitness_total_invariant cfgOk mpId esOne [] 0 0).1 1 0 0 1
